import Mathlib

/-!
A verification development for the `conv` C++ header (include/conv/conv.h),
a value-conversion and sequence-parsing utility.  The C++ code is shallowly
embedded: `std::string` becomes `List Char`, machine `int` becomes `Int`
(the claims stay well inside the 32-bit range; the one place where width
matters, the 8-bit narrowing casts, is modelled with explicit `% 256`),
and a fatal `assert` becomes `Option.none`.  Per C++11 stream semantics,
a failed `operator>>` extraction stores `0` into its target, so the
stream-extraction helpers are total and yield `0` when no digit is read.
-/

/-- The whitespace set `" \t\v\r\n"` used by `conv::internal::space<char>()`. -/
def isSpaceC (c : Char) : Bool :=
  c == ' ' || c == '\t' || c == '\x0b' || c == '\r' || c == '\n'

/-- Decimal digit test, as used by `num_get` stream extraction. -/
def isDigitC (c : Char) : Bool :=
  48 ≤ c.toNat && c.toNat ≤ 57

/-- Hexadecimal digit test, as used by `num_get` extraction under `std::hex`. -/
def isHexDigitC (c : Char) : Bool :=
  isDigitC c || (97 ≤ c.toNat && c.toNat ≤ 102) || (65 ≤ c.toNat && c.toNat ≤ 70)

/-- Index of the first element satisfying `p` (backbone of the
`find_first_not_of` / `find_first_of` embeddings below). -/
def findIdxA (p : Char → Bool) : List Char → Option Nat
  | [] => none
  | c :: rest => if p c then some 0 else (findIdxA p rest).map (· + 1)

/-- `str[i]` on a `std::string` (every use below has `i` in bounds). -/
def charAt (s : List Char) (i : Nat) : Char :=
  (s.drop i).headD ' '

/-- `str.substr(pos, count)` (count clamped to the end, as in C++). -/
def substr (s : List Char) (pos count : Nat) : List Char :=
  (s.drop pos).take count

/-- `str.find_first_not_of(space, pos)`; `none` plays `std::string::npos`. -/
def ffno (s : List Char) (pos : Nat) : Option Nat :=
  (findIdxA (fun c => !isSpaceC c) (s.drop pos)).map (pos + ·)

/-- `str.find_last_not_of(space)` over the whole string; `none` is `npos`. -/
def flnoAll (s : List Char) : Option Nat :=
  (findIdxA (fun c => !isSpaceC c) s.reverse).map (fun j => s.length - 1 - j)

/-- The character `'0' + d` for a digit value `d`. -/
def digitChar (d : Nat) : Char :=
  Char.ofNat (48 + d)

/-- Decimal rendering of a natural number, most significant digit first
(fuel-structured so that it is structurally recursive; `ostreamNat` always
supplies enough fuel). -/
def renderNatAux : Nat → Nat → List Char
  | 0, _ => []
  | fuel + 1, n =>
    if n < 10 then [digitChar n]
    else renderNatAux fuel (n / 10) ++ [digitChar (n % 10)]

/-- `std::ostringstream << n` for a non-negative value. -/
def ostreamNat (n : Nat) : List Char :=
  renderNatAux (n + 1) n

/-- `std::ostringstream << n` for an `int`: decimal digits, `'-'`-prefixed
when negative.  This is `conv::to<std::string>(int)`. -/
def ostreamInt (n : Int) : List Char :=
  if n < 0 then '-' :: ostreamNat n.natAbs else ostreamNat n.natAbs

/-- Value of a run of decimal digit characters. -/
def parseNat (l : List Char) : Nat :=
  l.foldl (fun a c => a * 10 + (c.toNat - 48)) 0

/-- Value of one hexadecimal digit character. -/
def hexDigitVal (c : Char) : Nat :=
  if isDigitC c then c.toNat - 48
  else if 97 ≤ c.toNat then c.toNat - 87
  else c.toNat - 55

/-- Value of a run of hexadecimal digit characters. -/
def parseHexNum (l : List Char) : Nat :=
  l.foldl (fun a c => a * 16 + hexDigitVal c) 0

/-- `num_get` under `std::hex` skips an optional `0x`/`0X` prefix. -/
def hexBody (s : List Char) : List Char :=
  match s with
  | c0 :: c1 :: rest =>
    if (c0 == '0') && ((c1 == 'x') || (c1 == 'X')) then rest else c0 :: c1 :: rest
  | other => other

/-- `in >> value_` on an `int` in the default (decimal) base: optional sign,
then the maximal run of decimal digits; a failed extraction stores `0`
(C++11 semantics, and the caller never inspects the stream state). -/
def extractDec (s : List Char) : Int :=
  match s with
  | [] => 0
  | c :: rest =>
    if c = '-' then -(parseNat (rest.takeWhile isDigitC) : Int)
    else if c = '+' then (parseNat (rest.takeWhile isDigitC) : Int)
    else (parseNat ((c :: rest).takeWhile isDigitC) : Int)

/-- `in >> std::hex >> value_`: optional sign, optional `0x`/`0X` prefix,
then the maximal run of hexadecimal digits; `0` on a failed extraction. -/
def extractHex (s : List Char) : Int :=
  match s with
  | [] => 0
  | c :: rest =>
    if c = '-' then -(parseHexNum ((hexBody rest).takeWhile isHexDigitC) : Int)
    else if c = '+' then (parseHexNum ((hexBody rest).takeWhile isHexDigitC) : Int)
    else (parseHexNum ((hexBody (c :: rest)).takeWhile isHexDigitC) : Int)

/-- `conv::to<int>::from_string<char>`: locate the first and last
non-whitespace characters (each `assert` is a `none`), take the trimmed
substring, assert it contains no whitespace, then extract in base 16 when
it starts with the two-character prefix `"0x"` and in base 10 otherwise. -/
def from_string_int (str : List Char) : Option Int :=
  match ffno str 0 with
  | none => none
  | some first =>
    match flnoAll str with
    | none => none
    | some last =>
      let trimmed := substr str first (last - first + 1)
      if trimmed.any isSpaceC then none
      else some (if 2 ≤ trimmed.length ∧ trimmed.take 2 = ['0', 'x']
                 then extractHex trimmed else extractDec trimmed)

/-- `static_cast<signed char>` of an `int`: two's-complement truncation
to 8 bits (the behaviour of every mainstream implementation). -/
def int8cast (n : Int) : Int :=
  (n + 128) % 256 - 128

/-- `static_cast<unsigned char>` of an `int`: reduction modulo 256. -/
def uint8cast (n : Int) : Int :=
  n % 256

/-- `conv::to<char>(const std::string&)`: `static_cast<char>(to<int>(str))`;
plain `char` is signed on the reference platform. -/
def to_char_string (s : List Char) : Option Int :=
  (from_string_int s).map int8cast

/-- `conv::to<signed char>(const std::string&)`. -/
def to_signed_char_string (s : List Char) : Option Int :=
  (from_string_int s).map int8cast

/-- `conv::to<unsigned char>(const std::string&)`. -/
def to_unsigned_char_string (s : List Char) : Option Int :=
  (from_string_int s).map uint8cast

/-- `conv::to<bool>(const std::string&)`: `!str.empty()`. -/
def to_bool_string (s : List Char) : Bool :=
  !s.isEmpty

/-- `conv::to<std::string>(const std::string&)`: the identity copy. -/
def to_string_string (s : List Char) : List Char :=
  s

/-- `operator<<(std::ostream&, const std::pair<T1,T2>&)`:
`out << "(" << p.first << ", " << p.second << ")"`, with `ra`/`rb` the
stream renderings of the element types. -/
def ostreamPair (ra : α → List Char) (rb : β → List Char) (p : α × β) : List Char :=
  '(' :: (ra p.1 ++ ',' :: ' ' :: rb p.2 ++ [')'])

/-- `operator<<(std::ostream&, const std::vector<T>&)`: empty vector writes
nothing; otherwise `[`, the first element, `", " << elem` for each further
element, then `]`. -/
def ostreamVec (r : α → List Char) (v : List α) : List Char :=
  match v with
  | [] => []
  | x :: xs => '[' :: (r x ++ (xs.map (fun y => ',' :: ' ' :: r y)).flatten ++ [']'])

/-- One `key: value` entry of the map rendering. -/
def renderEntry (rk : κ → List Char) (rv : ν → List Char) (e : κ × ν) : List Char :=
  rk e.1 ++ ':' :: ' ' :: rv e.2

/-- `operator<<(std::ostream&, const std::map<K,V>&)`: empty map writes
nothing; otherwise `{`, the first entry, `", " << entry` for each further
entry, then `}`.  A `std::map` iterates in sorted key order, so it is
modelled as a key-sorted association list. -/
def ostreamMap (rk : κ → List Char) (rv : ν → List Char) (m : List (κ × ν)) : List Char :=
  match m with
  | [] => []
  | e :: es =>
    '\x7b' :: (renderEntry rk rv e
      ++ (es.map (fun e2 => ',' :: ' ' :: renderEntry rk rv e2)).flatten ++ ['\x7d'])

/-- `conv::parse_options`: the three marker strings. -/
structure parse_options where
  lbracket_ : List Char
  rbracket_ : List Char
  comma_ : List Char

/-- The default-constructed `parse_options()`: `"["`, `"]"`, `","`. -/
def default_options : parse_options :=
  ⟨['['], [']'], [',']⟩

/-- The free function `conv::lbracket(s)`. -/
def lbracket (s : List Char) : parse_options :=
  { default_options with lbracket_ := s }

/-- The free function `conv::rbracket(s)`. -/
def rbracket (s : List Char) : parse_options :=
  { default_options with rbracket_ := s }

/-- The free function `conv::comma(s)`. -/
def comma (s : List Char) : parse_options :=
  { default_options with comma_ := s }

/-- The `lbracket` block of `conv::parse`: when the marker is non-empty,
assert `str[first] == lbracket[0]` (outer `none` on failure) and advance
`first` past it to the next non-whitespace index (inner `none` is `npos`). -/
def lbracketStep (lb str : List Char) (first0 : Nat) : Option (Option Nat) :=
  match lb with
  | [] => some (some first0)
  | c :: _ => if charAt str first0 = c then some (ffno str (first0 + 1)) else none

/-- The `rbracket` block of `conv::parse`: when the marker is non-empty,
assert `str[last] == rbracket[0]` and move `last` back to the previous
non-whitespace index.  `find_last_not_of(space, last - 1)` with `last == 0`
wraps to `npos` in `size_t` arithmetic, which makes it search the whole
string. -/
def rbracketStep (rb str : List Char) (last0 : Nat) : Option (Option Nat) :=
  match rb with
  | [] => some (some last0)
  | c :: _ =>
    if charAt str last0 = c then
      some (if last0 = 0 then flnoAll str else flnoAll (str.take last0))
    else none

/-- The `first` index of `conv::parse` after the whitespace/bracket prologue
(outer `none`: an assertion failed; inner `none`: `first` became `npos`). -/
def interiorFirst (opt : parse_options) (str : List Char) : Option (Option Nat) :=
  match ffno str 0 with
  | none => none
  | some f0 => lbracketStep opt.lbracket_ str f0

/-- The `last` index of `conv::parse` after the whitespace/bracket epilogue. -/
def interiorLast (opt : parse_options) (str : List Char) : Option (Option Nat) :=
  match flnoAll str with
  | none => none
  | some l0 => rbracketStep opt.rbracket_ str l0

/-- The `fields` string of `conv::parse`: `str.substr(first, last - first + 1)`
guarded by `assert(first < last)`.  When `last` is `npos` the comparison
`first < npos` holds for every real index and the `size_t` count
`npos - first + 1` reaches the end of the string — except for `first = 0`,
where it wraps to `0` and yields the empty substring. -/
def parseInterior (opt : parse_options) (str : List Char) : Option (List Char) :=
  match interiorFirst opt str, interiorLast opt str with
  | some (some first), some (some last) =>
    if first < last then some (substr str first (last - first + 1)) else none
  | some (some first), some none =>
    if first = 0 then some [] else some (str.drop first)
  | _, _ => none

/-- The field-splitting loop of `conv::parse`, on the suffix of `fields`
that starts at the loop's `first` index.  `find_first_of(opt.comma(), first)`
matches any character of the `comma` marker; a hit at the very start of the
suffix fails `assert(pos > first)`; otherwise the field before the hit is
converted and the loop continues after the hit.  When no separator remains
the final field (to the end of the string) is converted and appended.
Fuel-structured; each step consumes at least two characters, and
`scanFields` supplies enough fuel. -/
def scanFieldsAux (conv : List Char → Option α) (cm : List Char) :
    Nat → List Char → Option (List α)
  | 0, _ => none
  | fuel + 1, remaining =>
    match findIdxA (fun c => cm.contains c) remaining with
    | some idx =>
      if 0 < idx then
        match conv (remaining.take idx) with
        | none => none
        | some v =>
          match scanFieldsAux conv cm fuel (remaining.drop (idx + 1)) with
          | none => none
          | some rest => some (v :: rest)
      else none
    | none =>
      match conv remaining with
      | some v => some [v]
      | none => none

/-- The splitting loop started on the whole `fields` string. -/
def scanFields (conv : List Char → Option α) (cm fields : List Char) : Option (List α) :=
  scanFieldsAux conv cm (fields.length + 1) fields

/-- `conv::parse<VecT>(str, opt)`: compute the parseInterior `fields` string
(asserts become `none`), then split it on the separator set, converting
every field with the element conversion `conv`. -/
def parse (conv : List Char → Option α) (opt : parse_options) (str : List Char) :
    Option (List α) :=
  match parseInterior opt str with
  | none => none
  | some fields => scanFields conv opt.comma_ fields

/-- Spec-side trimming: drop all leading and all trailing whitespace. -/
def trimWS (s : List Char) : List Char :=
  ((s.dropWhile isSpaceC).reverse.dropWhile isSpaceC).reverse

/-- Modelled from the spec's words for the textual-to-integer conversion:
trim, fail on empty/whitespace-only input or internal whitespace, then
parse in base 16 under a `0x` prefix and in base 10 otherwise. -/
def spec_to_int (s : List Char) : Option Int :=
  let t := trimWS s
  if t = [] then none
  else if t.any isSpaceC then none
  else some (if 2 ≤ t.length ∧ t.take 2 = ['0', 'x']
             then extractHex t else extractDec t)

/-- Spec-side separator join: `e0 ++ sep ++ e1 ++ sep ++ ... ++ en`. -/
def sepBy (sep : List Char) : List (List Char) → List Char
  | [] => []
  | [x] => x
  | x :: y :: xs => x ++ sep ++ sepBy sep (y :: xs)

/-- Spec-side field splitting: the exact substrings between separator
characters (separators removed, empty fields kept, final field always
present). -/
def specSplit (p : Char → Bool) : List Char → List (List Char)
  | [] => [[]]
  | c :: rest =>
    if p c then [] :: specSplit p rest
    else
      match specSplit p rest with
      | f :: fs => (c :: f) :: fs
      | [] => [[c]]

/-- The final field of a fields string: everything after the last separator
character, or the whole string when it holds no separator. -/
def lastFieldOf (cm F : List Char) : List Char :=
  (F.reverse.takeWhile (fun c => !cm.contains c)).reverse

/-- `A` ends with a separator character. -/
def endsSep (cm A : List Char) : Prop :=
  ∃ A' c', A = A' ++ [c'] ∧ cm.contains c' = true

/-- The fields string has an empty non-final field: some separator occurs
as its very first character or immediately after another separator. -/
def badField (cm F : List Char) : Prop :=
  ∃ A c B, F = A ++ c :: B ∧ cm.contains c = true ∧ (A = [] ∨ endsSep cm A)

/-! ### Basic facts about `findIdxA` -/

theorem findIdxA_eq_none_iff (p : Char → Bool) (l : List Char) :
    findIdxA p l = none ↔ ∀ c ∈ l, p c = false := by
  induction l with
  | nil => simp [findIdxA]
  | cons c rest ih =>
    by_cases hc : p c
    · simp [findIdxA, hc]
    · simp only [findIdxA, if_neg hc, Option.map_eq_none', ih, List.mem_cons]
      constructor
      · rintro h x (rfl | hx)
        · exact Bool.eq_false_iff.mpr hc
        · exact h x hx
      · intro h x hx; exact h x (Or.inr hx)

theorem findIdxA_some_decomp (p : Char → Bool) (l : List Char) (i : Nat)
    (h : findIdxA p l = some i) :
    ∃ A c B, l = A ++ c :: B ∧ A.length = i ∧ p c = true ∧ ∀ x ∈ A, p x = false := by
  induction l generalizing i with
  | nil => simp [findIdxA] at h
  | cons c rest ih =>
    by_cases hc : p c
    · simp only [findIdxA, if_pos hc, Option.some_inj] at h
      exact ⟨[], c, rest, by simp, by simp [← h], hc, by simp⟩
    · simp only [findIdxA, if_neg hc, Option.map_eq_some'] at h
      obtain ⟨j, hj, rfl⟩ := h
      obtain ⟨A, d, B, rfl, hlen, hd, hA⟩ := ih j hj
      refine ⟨c :: A, d, B, rfl, by simp [hlen], hd, ?_⟩
      intro x hx
      rcases List.mem_cons.mp hx with rfl | hx'
      · exact Bool.eq_false_iff.mpr hc
      · exact hA x hx'

theorem findIdxA_append_sep (p : Char → Bool) (c : Char) (hc : p c = true) :
    ∀ (A B : List Char), ∃ i, findIdxA p (A ++ c :: B) = some i ∧ i ≤ A.length := by
  intro A B
  induction A with
  | nil => exact ⟨0, by simp [findIdxA, hc], by simp⟩
  | cons a A ih =>
    by_cases ha : p a
    · exact ⟨0, by simp [findIdxA, ha], by simp⟩
    · obtain ⟨i, hi, hle⟩ := ih
      exact ⟨i + 1, by simp [findIdxA, ha, hi], by simpa using Nat.succ_le_succ hle⟩

theorem dropWhile_ne_nil_of_mem (p : Char → Bool) (l : List Char) (c : Char)
    (hc : c ∈ l) (hpc : p c = false) : l.dropWhile p ≠ [] := by
  intro h
  have := List.dropWhile_eq_nil_iff.mp h c hc
  simp [hpc] at this

theorem ffno_zero_eq_none_iff (str : List Char) :
    ffno str 0 = none ↔ ∀ c ∈ str, isSpaceC c = true := by
  simp only [ffno, List.drop_zero, Option.map_eq_none', findIdxA_eq_none_iff]
  constructor <;> intro h c hc <;> simpa using h c hc

theorem flnoAll_eq_none_iff (str : List Char) :
    flnoAll str = none ↔ ∀ c ∈ str, isSpaceC c = true := by
  simp only [flnoAll, Option.map_eq_none', findIdxA_eq_none_iff, List.mem_reverse]
  constructor <;> intro h c hc <;> simpa using h c hc

theorem trimWS_eq_nil_of_all (str : List Char) (h : ∀ c ∈ str, isSpaceC c = true) :
    trimWS str = [] := by
  unfold trimWS
  rw [List.dropWhile_eq_nil_iff.mpr h]
  simp

/-- The index-based trimming of `from_string` coincides with dropping the
leading and trailing whitespace runs, and the result is non-empty. -/
theorem trim_substr_eq (str : List Char) (f l : Nat)
    (hf : ffno str 0 = some f) (hl : flnoAll str = some l) :
    substr str f (l - f + 1) = trimWS str ∧ trimWS str ≠ [] := by
  simp only [ffno, List.drop_zero, Option.map_eq_some'] at hf
  obtain ⟨j0, hj0, hf0⟩ := hf
  obtain ⟨A, c, B, hstr, hlenA, hc, hA⟩ := findIdxA_some_decomp _ _ _ hj0
  simp only [flnoAll, Option.map_eq_some'] at hl
  obtain ⟨j, hj, hl0⟩ := hl
  obtain ⟨A2, c2, B2, hrev, hlenA2, hc2, hA2⟩ := findIdxA_some_decomp _ _ _ hj
  have hcF : isSpaceC c = false := by simpa using hc
  have hc2F : isSpaceC c2 = false := by simpa using hc2
  have hAnil : A.dropWhile isSpaceC = [] :=
    List.dropWhile_eq_nil_iff.mpr (fun x hx => by simpa using hA x hx)
  have hA2nil : A2.dropWhile isSpaceC = [] :=
    List.dropWhile_eq_nil_iff.mpr (fun x hx => by simpa using hA2 x hx)
  have hD : str.dropWhile isSpaceC = c :: B := by
    rw [hstr, List.dropWhile_append, hAnil]
    simp [List.dropWhile_cons, hcF]
  have hWne : ((c :: B).reverse.dropWhile isSpaceC) ≠ [] :=
    dropWhile_ne_nil_of_mem _ _ c (by simp) hcF
  have hrevsplit : str.reverse = (c :: B).reverse ++ A.reverse := by
    rw [hstr]; simp
  have hie : ((c :: B).reverse.dropWhile isSpaceC).isEmpty = false := by
    cases hW : (c :: B).reverse.dropWhile isSpaceC with
    | nil => exact absurd hW hWne
    | cons _ _ => rfl
  have hWA : str.reverse.dropWhile isSpaceC
      = ((c :: B).reverse.dropWhile isSpaceC) ++ A.reverse := by
    rw [hrevsplit, List.dropWhile_append, hie]
    simp
  have hA2side : str.reverse.dropWhile isSpaceC = c2 :: B2 := by
    rw [hrev, List.dropWhile_append, hA2nil]
    simp [List.dropWhile_cons, hc2F]
  have hWlen : B2.length + 1
      = ((c :: B).reverse.dropWhile isSpaceC).length + A.length := by
    have := congrArg List.length (hA2side.symm.trans hWA)
    simpa using this
  have hlen1 : str.length = A.length + (B.length + 1) := by
    rw [hstr]; simp
  have hlen2 : str.length = A2.length + (B2.length + 1) := by
    have := congrArg List.length hrev
    simpa using this
  have hWpos : 0 < ((c :: B).reverse.dropWhile isSpaceC).length :=
    List.length_pos.mpr hWne
  have hWle : ((c :: B).reverse.dropWhile isSpaceC).length ≤ B.length + 1 := by
    have h3 : ((c :: B).reverse.dropWhile isSpaceC).Sublist ((c :: B).reverse) :=
      List.dropWhile_sublist isSpaceC
    have := h3.length_le
    simpa using this
  have hcount : l - f + 1 = ((c :: B).reverse.dropWhile isSpaceC).length := by
    omega
  have htrim : trimWS str = ((c :: B).reverse.dropWhile isSpaceC).reverse := by
    unfold trimWS
    rw [hD]
  have hTW := List.takeWhile_append_dropWhile isSpaceC (c :: B).reverse
  have hsplitD : c :: B = ((c :: B).reverse.dropWhile isSpaceC).reverse
      ++ ((c :: B).reverse.takeWhile isSpaceC).reverse := by
    rw [← List.reverse_append, hTW, List.reverse_reverse]
  have hdropf : str.drop f = c :: B := by
    rw [hstr]
    exact List.drop_left' (by omega)
  have htake : (c :: B).take ((c :: B).reverse.dropWhile isSpaceC).length
      = ((c :: B).reverse.dropWhile isSpaceC).reverse := by
    conv_lhs => rw [hsplitD]
    exact List.take_left' (by simp)
  constructor
  · unfold substr
    rw [hdropf, hcount, htrim]
    exact htake
  · rw [htrim]
    intro hnil
    exact hWne (by simpa using congrArg List.reverse hnil)

/-- Claim C1: `conv::to<int>` from a string first trims all leading and
trailing whitespace (space, tab, vertical tab, carriage return, newline),
fails as a precondition violation when the input is empty or entirely
whitespace or when the trimmed remainder contains internal whitespace, and
parses the remainder in base 16 when it begins with the two-character
prefix `0x` and in base 10 otherwise; with the quoted concrete values. -/
theorem C1_to_int_trims_and_selects_base :
    (∀ s : List Char, from_string_int s = spec_to_int s)
    ∧ from_string_int "0xFF".toList = some 255
    ∧ from_string_int "0x000000FF".toList = some 255
    ∧ from_string_int "  1234  ".toList = some 1234
    ∧ from_string_int "001234".toList = some 1234
    ∧ from_string_int "0000".toList = some 0 := by
  refine ⟨?_, by decide, by decide, by decide, by decide, by decide⟩
  intro s
  cases h : ffno s 0 with
  | none =>
    have hall := (ffno_zero_eq_none_iff s).mp h
    have hnil : trimWS s = [] := trimWS_eq_nil_of_all s hall
    simp [from_string_int, h, spec_to_int, hnil]
  | some f =>
    cases h2 : flnoAll s with
    | none =>
      have hall := (flnoAll_eq_none_iff s).mp h2
      have hno : ffno s 0 = none := (ffno_zero_eq_none_iff s).mpr hall
      rw [hno] at h
      cases h
    | some l =>
      obtain ⟨heq, hne⟩ := trim_substr_eq s f l h h2
      simp only [from_string_int, h, h2, heq, spec_to_int]
      rw [if_neg hne]

/-- Claim C2: `conv::to<bool>` from a string returns false if and only if
the input is the exact empty string, with no trimming applied; the
whitespace-only string and the literals "true" and "false" all yield true. -/
theorem C2_to_bool_nonempty_is_true :
    (∀ s : List Char, to_bool_string s = false ↔ s = [])
    ∧ to_bool_string "".toList = false
    ∧ to_bool_string "  ".toList = true
    ∧ to_bool_string "true".toList = true
    ∧ to_bool_string "false".toList = true := by
  refine ⟨?_, by decide, by decide, by decide, by decide⟩
  intro s
  cases s <;> simp [to_bool_string]

/-- Claim C3: the 8-bit conversions from a string equal the full-width
`to<int>` conversion of that same text truncated to 8 bits (two's
complement for `char`/`signed char`, modulo 256 for `unsigned char`); in
particular `to<signed char>("0xFF") = -1` and
`to<unsigned char>("0xFF") = 255`. -/
theorem C3_narrow_int_truncates :
    (∀ (s : List Char) (v : Int), from_string_int s = some v →
      to_signed_char_string s = some ((v + 128) % 256 - 128)
      ∧ to_unsigned_char_string s = some (v % 256)
      ∧ to_char_string s = some ((v + 128) % 256 - 128))
    ∧ (∀ s : List Char, from_string_int s = none →
      to_signed_char_string s = none
      ∧ to_unsigned_char_string s = none
      ∧ to_char_string s = none)
    ∧ to_signed_char_string "0xFF".toList = some (-1)
    ∧ to_unsigned_char_string "0xFF".toList = some 255
    ∧ to_char_string "0xFF".toList = some (-1) := by
  refine ⟨?_, ?_, by decide, by decide, by decide⟩
  · intro s v h
    refine ⟨?_, ?_, ?_⟩ <;>
      simp [to_signed_char_string, to_unsigned_char_string, to_char_string, h,
        int8cast, uint8cast]
  · intro s h
    refine ⟨?_, ?_, ?_⟩ <;>
      simp [to_signed_char_string, to_unsigned_char_string, to_char_string, h]

theorem C3_narrow_int_truncates_witness :
    to_signed_char_string "0xFF".toList = some ((255 + 128) % 256 - 128)
    ∧ to_unsigned_char_string "0xFF".toList = some (255 % 256)
    ∧ to_signed_char_string " ".toList = none :=
  ⟨(C3_narrow_int_truncates.1 "0xFF".toList 255 (by decide)).1,
   (C3_narrow_int_truncates.1 "0xFF".toList 255 (by decide)).2.1,
   (C3_narrow_int_truncates.2.1 " ".toList (by decide)).1⟩

theorem flatten_sep_eq_sepBy (sep : List Char) (a : List Char) (ls : List (List Char)) :
    a ++ (ls.map (fun y => sep ++ y)).flatten = sepBy sep (a :: ls) := by
  induction ls generalizing a with
  | nil => simp [sepBy]
  | cons y ys ih =>
    show a ++ ((sep ++ y) :: (ys.map fun z => sep ++ z)).flatten = _
    rw [List.flatten_cons, sepBy, ← ih y]
    simp [List.append_assoc]

/-- Claim C4: container-to-text rendering writes a pair as `(a, b)`, a
vector as `[e0, e1, ..., en]` (empty vector: empty text), and a key-sorted
map as `{k0: v0, k1: v1, ...}` (empty map: empty text), with no trimming
or padding of elements; with the quoted concrete renderings. -/
theorem C4_container_rendering :
    (∀ (α β : Type) (ra : α → List Char) (rb : β → List Char) (p : α × β),
      ostreamPair ra rb p = ['('] ++ ra p.1 ++ [',', ' '] ++ rb p.2 ++ [')'])
    ∧ (∀ (α : Type) (r : α → List Char) (v : List α),
      ostreamVec r v = if v.isEmpty then []
        else ['['] ++ sepBy [',', ' '] (v.map r) ++ [']'])
    ∧ (∀ (κ ν : Type) (lt : κ → κ → Prop) (rk : κ → List Char) (rv : ν → List Char)
        (m : List (κ × ν)), m.Pairwise (fun a b => lt a.1 b.1) →
      ostreamMap rk rv m = if m.isEmpty then []
        else ['\x7b'] ++ sepBy [',', ' '] (m.map (renderEntry rk rv)) ++ ['\x7d'])
    ∧ ostreamPair ostreamInt ostreamInt ((10 : Int), (20 : Int)) = "(10, 20)".toList
    ∧ ostreamVec ostreamInt [(0 : Int), 1, 2] = "[0, 1, 2]".toList
    ∧ ostreamVec ostreamInt ([] : List Int) = []
    ∧ ostreamMap to_string_string ostreamInt
        [("a".toList, (0 : Int)), ("b".toList, 1), ("c".toList, 2)]
      = "\x7ba: 0, b: 1, c: 2\x7d".toList
    ∧ ostreamMap to_string_string ostreamInt ([] : List (List Char × Int)) = [] := by
  refine ⟨?_, ?_, ?_, by decide, by decide, by decide, by decide, by decide⟩
  · intro α β ra rb p
    simp [ostreamPair]
  · intro α r v
    cases v with
    | nil => simp [ostreamVec]
    | cons x xs =>
      rw [if_neg (by simp)]
      show '[' :: (r x ++ (xs.map (fun y => ',' :: ' ' :: r y)).flatten ++ [']']) = _
      have hmm : xs.map (fun y => ',' :: ' ' :: r y)
          = (xs.map r).map (fun z => [',', ' '] ++ z) := by
        rw [List.map_map]
        rfl
      rw [hmm, flatten_sep_eq_sepBy [',', ' '] (r x) (xs.map r)]
      simp
  · intro κ ν lt rk rv m _
    cases m with
    | nil => simp [ostreamMap]
    | cons e es =>
      rw [if_neg (by simp)]
      show '\x7b' :: (renderEntry rk rv e
          ++ (es.map (fun e2 => ',' :: ' ' :: renderEntry rk rv e2)).flatten ++ ['\x7d']) = _
      have hmm : es.map (fun e2 => ',' :: ' ' :: renderEntry rk rv e2)
          = (es.map (renderEntry rk rv)).map (fun z => [',', ' '] ++ z) := by
        rw [List.map_map]
        rfl
      rw [hmm,
        flatten_sep_eq_sepBy [',', ' '] (renderEntry rk rv e) (es.map (renderEntry rk rv))]
      simp

theorem C4_container_rendering_witness :
    ostreamMap to_string_string ostreamInt [("a".toList, (0 : Int)), ("b".toList, 1)]
      = if [("a".toList, (0 : Int)), ("b".toList, 1)].isEmpty then []
        else ['\x7b'] ++ sepBy [',', ' ']
          ([("a".toList, (0 : Int)), ("b".toList, 1)].map
            (renderEntry to_string_string ostreamInt)) ++ ['\x7d'] :=
  C4_container_rendering.2.2.1 (List Char) Int (fun a b => a.length ≤ b.length)
    to_string_string ostreamInt [("a".toList, (0 : Int)), ("b".toList, 1)]
    (by simp)

/-! ### Decimal rendering round-trip -/

theorem digitChar_toNat (d : Nat) (h : d < 10) : (digitChar d).toNat = 48 + d := by
  interval_cases d <;> decide

theorem renderNatAux_digits (fuel : Nat) :
    ∀ n : Nat, n < fuel →
      renderNatAux fuel n ≠ []
      ∧ ∀ c ∈ renderNatAux fuel n, 48 ≤ c.toNat ∧ c.toNat ≤ 57 := by
  induction fuel with
  | zero => intro n h; omega
  | succ fuel ih =>
    intro n h
    by_cases h10 : n < 10
    · refine ⟨by simp [renderNatAux, h10], ?_⟩
      intro c hc
      simp only [renderNatAux, if_pos h10, List.mem_singleton] at hc
      subst hc
      rw [digitChar_toNat n h10]
      omega
    · have hdiv : n / 10 < fuel := by
        have := Nat.div_lt_self (by omega : 0 < n) (by omega : (1 : Nat) < 10)
        omega
      obtain ⟨hne, hall⟩ := ih (n / 10) hdiv
      refine ⟨by simp [renderNatAux, h10], ?_⟩
      intro c hc
      simp only [renderNatAux, if_neg h10, List.mem_append, List.mem_singleton] at hc
      rcases hc with hc | hc
      · exact hall c hc
      · subst hc
        rw [digitChar_toNat _ (Nat.mod_lt _ (by omega))]
        omega

theorem parseNat_append (l1 l2 : List Char) :
    parseNat (l1 ++ l2) = l2.foldl (fun a c => a * 10 + (c.toNat - 48)) (parseNat l1) := by
  simp [parseNat, List.foldl_append]

theorem parseNat_renderNatAux (fuel : Nat) :
    ∀ n : Nat, n < fuel → parseNat (renderNatAux fuel n) = n := by
  induction fuel with
  | zero => intro n h; omega
  | succ fuel ih =>
    intro n h
    by_cases h10 : n < 10
    · simp only [renderNatAux, if_pos h10, parseNat, List.foldl_cons, List.foldl_nil]
      rw [digitChar_toNat n h10]
      omega
    · have hdiv : n / 10 < fuel := by
        have := Nat.div_lt_self (by omega : 0 < n) (by omega : (1 : Nat) < 10)
        omega
      simp only [renderNatAux, if_neg h10]
      rw [parseNat_append, List.foldl_cons, List.foldl_nil, ih (n / 10) hdiv,
        digitChar_toNat _ (Nat.mod_lt _ (by omega))]
      omega

theorem ostreamNat_digits (n : Nat) :
    ostreamNat n ≠ [] ∧ ∀ c ∈ ostreamNat n, 48 ≤ c.toNat ∧ c.toNat ≤ 57 :=
  renderNatAux_digits (n + 1) n (by omega)

theorem parseNat_ostreamNat (n : Nat) : parseNat (ostreamNat n) = n :=
  parseNat_renderNatAux (n + 1) n (by omega)

theorem isSpaceC_toNat (c : Char) (h : isSpaceC c = true) :
    c.toNat = 32 ∨ c.toNat = 9 ∨ c.toNat = 11 ∨ c.toNat = 13 ∨ c.toNat = 10 := by
  simp only [isSpaceC, Bool.or_eq_true, beq_iff_eq] at h
  rcases h with ((((rfl | rfl) | rfl) | rfl) | rfl) <;> decide

theorem digit_not_space (c : Char) (h48 : 48 ≤ c.toNat) (h57 : c.toNat ≤ 57) :
    isSpaceC c = false := by
  by_contra h
  have h2 := isSpaceC_toNat c (by simpa using h)
  omega

theorem digit_isDigitC (c : Char) (h48 : 48 ≤ c.toNat) (h57 : c.toNat ≤ 57) :
    isDigitC c = true := by
  simp [isDigitC, h48, h57]

/-- When the string holds no whitespace at all, `from_string` leaves it
unchanged by trimming and goes straight to base selection. -/
theorem from_string_int_nospace (s : List Char) (hne : s ≠ [])
    (hsp : ∀ c ∈ s, isSpaceC c = false) :
    from_string_int s = some (if 2 ≤ s.length ∧ s.take 2 = ['0', 'x']
      then extractHex s else extractDec s) := by
  obtain ⟨c, t, rfl⟩ := List.exists_cons_of_ne_nil hne
  have hffno : ffno (c :: t) 0 = some 0 := by
    have hc : isSpaceC c = false := hsp c (by simp)
    simp [ffno, findIdxA, hc]
  have hrevne : (c :: t).reverse ≠ [] := by simp
  obtain ⟨d, t2, hrev⟩ := List.exists_cons_of_ne_nil hrevne
  have hdmem : d ∈ c :: t := by
    have h5 : d ∈ (c :: t).reverse := by rw [hrev]; simp
    exact List.mem_reverse.mp h5
  have hd : isSpaceC d = false := hsp d hdmem
  have hflno : flnoAll (c :: t) = some ((c :: t).length - 1) := by
    simp [flnoAll, hrev, findIdxA, hd]
  have htr : substr (c :: t) 0 ((c :: t).length - 1 - 0 + 1) = c :: t := by
    have harith : (c :: t).length - 1 - 0 + 1 = (c :: t).length := by
      simp
    rw [substr, List.drop_zero, harith, List.take_length]
  have hany : (c :: t).any isSpaceC = false :=
    List.any_eq_false.mpr (fun x hx => by simp [hsp x hx])
  simp only [from_string_int, hffno, hflno, htr, hany, Bool.false_eq_true, if_false]

/-- Claim C9: converting the natural base-10 decimal rendering of any
integer back through the textual integer conversion returns that integer
(`to<int>` is a left inverse of `to<std::string>` on the non-hex path). -/
theorem C9_decimal_roundtrip (n : Int) :
    from_string_int (ostreamInt n) = some n := by
  obtain ⟨hne, hdig⟩ := ostreamNat_digits n.natAbs
  have hnospace : ∀ c ∈ ostreamNat n.natAbs, isSpaceC c = false :=
    fun c hc => digit_not_space c (hdig c hc).1 (hdig c hc).2
  have hnox : ¬ (2 ≤ (ostreamNat n.natAbs).length
      ∧ (ostreamNat n.natAbs).take 2 = ['0', 'x']) := by
    rintro ⟨-, htake⟩
    have hx : 'x' ∈ (ostreamNat n.natAbs).take 2 := by rw [htake]; simp
    have hx2 : 'x' ∈ ostreamNat n.natAbs := List.mem_of_mem_take hx
    have h2 := (hdig 'x' hx2).2
    have h3 : ('x').toNat = 120 := by decide
    omega
  have htwself : (ostreamNat n.natAbs).takeWhile isDigitC = ostreamNat n.natAbs :=
    List.takeWhile_eq_self_iff.mpr (fun c hc => digit_isDigitC c (hdig c hc).1 (hdig c hc).2)
  by_cases hneg : n < 0
  · have hrepr : ostreamInt n = '-' :: ostreamNat n.natAbs := by
      simp [ostreamInt, hneg]
    have hnosp2 : ∀ c ∈ ostreamInt n, isSpaceC c = false := by
      rw [hrepr]
      intro c hc
      rcases List.mem_cons.mp hc with rfl | hc2
      · decide
      · exact hnospace c hc2
    have hne2 : ostreamInt n ≠ [] := by rw [hrepr]; simp
    rw [from_string_int_nospace _ hne2 hnosp2]
    have hnox2 : ¬ (2 ≤ (ostreamInt n).length ∧ (ostreamInt n).take 2 = ['0', 'x']) := by
      rintro ⟨-, htake⟩
      rw [hrepr] at htake
      have hsplit : ('-' :: ostreamNat n.natAbs).take 2
          = '-' :: (ostreamNat n.natAbs).take 1 := rfl
      rw [hsplit] at htake
      exact absurd (List.cons.inj htake).1 (by decide)
    rw [if_neg hnox2, hrepr]
    show some (extractDec ('-' :: ostreamNat n.natAbs)) = some n
    rw [extractDec]
    simp only [if_pos rfl]
    rw [htwself, parseNat_ostreamNat]
    have hval : -((n.natAbs : Int)) = n := by omega
    rw [hval]
    simp
  · have hrepr : ostreamInt n = ostreamNat n.natAbs := by
      simp [ostreamInt, hneg]
    rw [from_string_int_nospace _ (by rw [hrepr]; exact hne) (by rw [hrepr]; exact hnospace)]
    rw [hrepr, if_neg hnox]
    obtain ⟨c, t, hct⟩ := List.exists_cons_of_ne_nil hne
    have hc48 : 48 ≤ c.toNat := (hdig c (by rw [hct]; simp)).1
    rw [hct, extractDec]
    have hcm : c ≠ '-' := by
      intro h
      subst h
      revert hc48
      decide
    have hcp : c ≠ '+' := by
      intro h
      subst h
      revert hc48
      decide
    rw [if_neg hcm, if_neg hcp, ← hct, htwself, parseNat_ostreamNat]
    have hval : ((n.natAbs : Int)) = n := by omega
    rw [hval]

/-- Claim C5: `parse<vector<int>>` returns `[0, 1, 2]` for `"[0,1,2]"`
under default options, and the same for each listed input/option variant. -/
theorem C5_parse_int_examples :
    parse from_string_int default_options "[0,1,2]".toList = some [0, 1, 2]
    ∧ parse from_string_int default_options "[0, 1, 2]".toList = some [0, 1, 2]
    ∧ parse from_string_int default_options "  [0,1,2]  ".toList = some [0, 1, 2]
    ∧ parse from_string_int (comma " ".toList) "[0 1 2]".toList = some [0, 1, 2]
    ∧ parse from_string_int (lbracket "".toList) "  0,1,2]".toList = some [0, 1, 2]
    ∧ parse from_string_int (rbracket "".toList) "[0,1,2  ".toList = some [0, 1, 2]
    ∧ parse from_string_int (comma "[".toList) "[0[1[2]".toList = some [0, 1, 2]
    ∧ parse from_string_int (comma "]".toList) "[0]1]2]".toList = some [0, 1, 2] := by
  refine ⟨?_, ?_, ?_, ?_, ?_, ?_, ?_, ?_⟩ <;> decide

/-! ### Facts about the field-splitting loop -/

theorem scanFieldsAux_badField (conv : List Char → Option α) (cm : List Char) :
    ∀ (fuel : Nat) (F : List Char), F.length < fuel → badField cm F →
      scanFieldsAux conv cm fuel F = none := by
  intro fuel
  induction fuel with
  | zero => intro F h _; omega
  | succ fuel ih =>
    intro F hlen hbad
    obtain ⟨A, c, B, rfl, hcsep, hA⟩ := hbad
    obtain ⟨idx, hidx, hle⟩ := findIdxA_append_sep (fun x => cm.contains x) c hcsep A B
    simp only [scanFieldsAux, hidx]
    by_cases hpos : 0 < idx
    · rw [if_pos hpos]
      have hlt : idx < A.length := by
        rcases Nat.lt_or_ge idx A.length with h | h
        · exact h
        · have heq : idx = A.length := le_antisymm hle h
          obtain ⟨A1, c1, B1, hF, hlenA1, hc1, hA1⟩ := findIdxA_some_decomp _ _ _ hidx
          have hinj := List.append_inj hF.symm (by omega)
          rcases hA with rfl | ⟨A', c', hA'eq, hc'⟩
          · simp at heq
            omega
          · have hc'memA1 : c' ∈ A1 := by
              rw [hinj.1, hA'eq]
              simp
            have := hA1 c' hc'memA1
            rw [hc'] at this
            cases this
      have hdrop : (A ++ c :: B).drop (idx + 1) = A.drop (idx + 1) ++ c :: B :=
        List.drop_append_of_le_length (by omega)
      have hbad2 : badField cm (A.drop (idx + 1) ++ c :: B) := by
        refine ⟨A.drop (idx + 1), c, B, rfl, hcsep, ?_⟩
        by_cases hend : idx + 1 = A.length
        · left
          rw [hend, List.drop_length]
        · right
          have hlt2 : idx + 1 < A.length := by omega
          rcases hA with rfl | ⟨A', c', rfl, hc'⟩
          · simp at hlt
          · refine ⟨A'.drop (idx + 1), c', ?_, hc'⟩
            exact List.drop_append_of_le_length (by simp at hlt2 ⊢; omega)
      have hlen2 : (A.drop (idx + 1) ++ c :: B).length < fuel := by
        simp at hlen ⊢
        omega
      have hrec := ih _ hlen2 hbad2
      cases hconv : conv ((A ++ c :: B).take idx) with
      | none => rfl
      | some v =>
        rw [hdrop, hrec]
    · rw [if_neg hpos]

theorem takeWhile_append_sep (p : Char → Bool) (c : Char) (hc : p c = false)
    (xs ys : List Char) : (xs ++ c :: ys).takeWhile p = xs.takeWhile p := by
  induction xs with
  | nil => simp [List.takeWhile_cons, hc]
  | cons a as ih =>
    by_cases ha : p a
    · simp [List.takeWhile_cons, ha, ih]
    · simp [List.takeWhile_cons, ha]

theorem lastFieldOf_drop_sep (cm : List Char) (A B : List Char) (c : Char)
    (hc : cm.contains c = true) :
    lastFieldOf cm (A ++ c :: B) = lastFieldOf cm B := by
  unfold lastFieldOf
  have h1 : (A ++ c :: B).reverse = B.reverse ++ c :: A.reverse := by simp
  have hc2 : (fun x => !cm.contains x) c = false := by
    show (!cm.contains c) = false
    rw [hc]
    rfl
  rw [h1, takeWhile_append_sep _ c hc2 _ _]

theorem scanFieldsAux_getLast (conv : List Char → Option α) (cm : List Char) :
    ∀ (fuel : Nat) (F : List Char) (l : List α), F.length < fuel →
      scanFieldsAux conv cm fuel F = some l →
      ∃ v, conv (lastFieldOf cm F) = some v ∧ l.getLast? = some v := by
  intro fuel
  induction fuel with
  | zero => intro F l h _; omega
  | succ fuel ih =>
    intro F l hlen hscan
    cases hidx : findIdxA (fun x => cm.contains x) F with
    | none =>
      simp only [scanFieldsAux, hidx] at hscan
      cases hconv : conv F with
      | none => simp [hconv] at hscan
      | some v =>
        simp only [hconv] at hscan
        have hl : l = [v] := (Option.some.inj hscan).symm
        refine ⟨v, ?_, by rw [hl]; rfl⟩
        have hself : F.reverse.takeWhile (fun x => !cm.contains x) = F.reverse := by
          refine List.takeWhile_eq_self_iff.mpr ?_
          intro x hx
          show (!cm.contains x) = true
          rw [(findIdxA_eq_none_iff _ _).mp hidx x (List.mem_reverse.mp hx)]
          rfl
        rw [lastFieldOf, hself, List.reverse_reverse, hconv]
    | some idx =>
      simp only [scanFieldsAux, hidx] at hscan
      obtain ⟨A, c, B, rfl, hlenA, hc, hA⟩ := findIdxA_some_decomp _ _ _ hidx
      by_cases hpos : 0 < idx
      · rw [if_pos hpos] at hscan
        cases hconv : conv ((A ++ c :: B).take idx) with
        | none => simp [hconv] at hscan
        | some v =>
          simp only [hconv] at hscan
          cases hrec : scanFieldsAux conv cm fuel ((A ++ c :: B).drop (idx + 1)) with
          | none => simp [hrec] at hscan
          | some rest =>
            simp only [hrec] at hscan
            have hl : l = v :: rest := (Option.some.inj hscan).symm
            have hassoc : A ++ c :: B = (A ++ [c]) ++ B := by simp
            have hdrop : (A ++ c :: B).drop (idx + 1) = B := by
              rw [hassoc]
              exact List.drop_left' (by simp [hlenA])
            rw [hdrop] at hrec
            have hlenB : B.length < fuel := by
              simp at hlen
              omega
            obtain ⟨w, hw1, hw2⟩ := ih B rest hlenB hrec
            refine ⟨w, ?_, ?_⟩
            · rw [lastFieldOf_drop_sep cm A B c hc]
              exact hw1
            · rw [hl]
              cases rest with
              | nil => simp at hw2
              | cons r rs =>
                rw [List.getLast?_cons_cons]
                exact hw2
      · rw [if_neg hpos] at hscan
        exact Option.noConfusion hscan

theorem scanFieldsAux_congr_sepset (conv : List Char → Option α) (cm1 cm2 : List Char)
    (hset : ∀ c, cm1.contains c = cm2.contains c) :
    ∀ (fuel : Nat) (F : List Char),
      scanFieldsAux conv cm1 fuel F = scanFieldsAux conv cm2 fuel F := by
  intro fuel
  induction fuel with
  | zero => intro F; rfl
  | succ fuel ih =>
    intro F
    have hpred : (fun c => cm1.contains c) = (fun c => cm2.contains c) := funext hset
    simp only [scanFieldsAux, hpred, ih]

/-! ### Facts about the spec-side splitting -/

theorem specSplit_no_sep (p : Char → Bool) (l : List Char)
    (h : ∀ x ∈ l, p x = false) : specSplit p l = [l] := by
  induction l with
  | nil => rfl
  | cons c rest ih =>
    have hc : p c = false := h c (by simp)
    have ih2 := ih (fun x hx => h x (by simp [hx]))
    simp only [specSplit]
    rw [if_neg (by simp [hc]), ih2]

theorem specSplit_append_sep (p : Char → Bool) (c : Char) (hc : p c = true)
    (A B : List Char) (hA : ∀ x ∈ A, p x = false) :
    specSplit p (A ++ c :: B) = A :: specSplit p B := by
  induction A with
  | nil =>
    simp only [List.nil_append, specSplit]
    rw [if_pos hc]
  | cons a as ih =>
    have ha : p a = false := hA a (by simp)
    have ih2 := ih (fun x hx => hA x (by simp [hx]))
    simp only [List.cons_append, specSplit]
    rw [if_neg (by simp [ha])]
    have hfold : as.append (c :: B) = as ++ c :: B := rfl
    rw [hfold, ih2]

theorem scanFieldsAux_specSplit (cm : List Char) :
    ∀ (fuel : Nat) (F : List Char) (l : List (List Char)), F.length < fuel →
      scanFieldsAux (fun s => some (to_string_string s)) cm fuel F = some l →
      l = specSplit (fun x => cm.contains x) F := by
  intro fuel
  induction fuel with
  | zero => intro F l h _; omega
  | succ fuel ih =>
    intro F l hlen hscan
    cases hidx : findIdxA (fun x => cm.contains x) F with
    | none =>
      simp only [scanFieldsAux, hidx, to_string_string] at hscan
      have hl : l = [F] := (Option.some.inj hscan).symm
      rw [hl, specSplit_no_sep _ F ((findIdxA_eq_none_iff _ _).mp hidx)]
    | some idx =>
      simp only [scanFieldsAux, hidx] at hscan
      obtain ⟨A, c, B, rfl, hlenA, hc, hA⟩ := findIdxA_some_decomp _ _ _ hidx
      by_cases hpos : 0 < idx
      · rw [if_pos hpos] at hscan
        cases hrec : scanFieldsAux (fun s => some (to_string_string s)) cm fuel
            ((A ++ c :: B).drop (idx + 1)) with
        | none => simp [hrec] at hscan
        | some rest =>
          simp only [hrec] at hscan
          have hl : l = to_string_string ((A ++ c :: B).take idx) :: rest :=
            (Option.some.inj hscan).symm
          have hts : to_string_string ((A ++ c :: B).take idx)
              = (A ++ c :: B).take idx := rfl
          have htake : (A ++ c :: B).take idx = A := List.take_left' hlenA
          have hassoc : A ++ c :: B = (A ++ [c]) ++ B := by simp
          have hdrop : (A ++ c :: B).drop (idx + 1) = B := by
            rw [hassoc]
            exact List.drop_left' (by simp [hlenA])
          rw [hdrop] at hrec
          have hlenB : B.length < fuel := by
            simp at hlen
            omega
          have hrest := ih B rest hlenB hrec
          rw [hl, hts, htake, hrest, specSplit_append_sep _ c hc A B hA]
      · rw [if_neg hpos] at hscan
        exact Option.noConfusion hscan

/-! ### Parse-level plumbing -/

theorem parseInterior_of_first_none (opt : parse_options) (str : List Char)
    (h : interiorFirst opt str = none) : parseInterior opt str = none := by
  unfold parseInterior
  rw [h]

theorem parseInterior_of_last_none (opt : parse_options) (str : List Char)
    (h : interiorLast opt str = none) : parseInterior opt str = none := by
  unfold parseInterior
  rw [h]
  cases hF : interiorFirst opt str with
  | none => rfl
  | some x => cases x with
    | none => rfl
    | some f0 => rfl

theorem parse_of_parseInterior_none (conv : List Char → Option α) (opt : parse_options)
    (str : List Char) (h : parseInterior opt str = none) : parse conv opt str = none := by
  unfold parse
  rw [h]

theorem parse_eq_scan (conv : List Char → Option α) (opt : parse_options)
    (str F : List Char) (h : parseInterior opt str = some F) :
    parse conv opt str = scanFields conv opt.comma_ F := by
  unfold parse
  rw [h]

theorem ffno_zero_isSome (str : List Char) (hne : str.dropWhile isSpaceC ≠ []) :
    ∃ f0, ffno str 0 = some f0 := by
  cases h : ffno str 0 with
  | none =>
    have hall := (ffno_zero_eq_none_iff str).mp h
    exact absurd (List.dropWhile_eq_nil_iff.mpr (fun x hx => by simp [hall x hx])) hne
  | some f0 => exact ⟨f0, rfl⟩

theorem flnoAll_isSome (str : List Char) (hne : str.reverse.dropWhile isSpaceC ≠ []) :
    ∃ l0, flnoAll str = some l0 := by
  cases h : flnoAll str with
  | none =>
    have hall := (flnoAll_eq_none_iff str).mp h
    refine absurd (List.dropWhile_eq_nil_iff.mpr ?_) hne
    intro x hx
    simp [hall x (List.mem_reverse.mp hx)]
  | some l0 => exact ⟨l0, rfl⟩

theorem ffno_zero_drop (str : List Char) (f0 : Nat) (h : ffno str 0 = some f0) :
    str.drop f0 = str.dropWhile isSpaceC := by
  simp only [ffno, List.drop_zero, Option.map_eq_some'] at h
  obtain ⟨j, hj, hf⟩ := h
  obtain ⟨A, c, B, rfl, hlenA, hc, hA⟩ := findIdxA_some_decomp _ _ _ hj
  have hAnil : A.dropWhile isSpaceC = [] :=
    List.dropWhile_eq_nil_iff.mpr (fun x hx => by simpa using hA x hx)
  have hcF : isSpaceC c = false := by simpa using hc
  have hD : (A ++ c :: B).dropWhile isSpaceC = c :: B := by
    rw [List.dropWhile_append, hAnil]
    simp [List.dropWhile_cons, hcF]
  have hdropf : (A ++ c :: B).drop f0 = c :: B := by
    apply List.drop_left'
    omega
  rw [hD, hdropf]

theorem flnoAll_charAt (str : List Char) (l0 : Nat) (d : Char) (rest : List Char)
    (h : flnoAll str = some l0) (hdw : str.reverse.dropWhile isSpaceC = d :: rest) :
    charAt str l0 = d := by
  simp only [flnoAll, Option.map_eq_some'] at h
  obtain ⟨j, hj, hl⟩ := h
  obtain ⟨A2, c2, B2, hrev, hlenA2, hc2, hA2⟩ := findIdxA_some_decomp _ _ _ hj
  have hA2nil : A2.dropWhile isSpaceC = [] :=
    List.dropWhile_eq_nil_iff.mpr (fun x hx => by simpa using hA2 x hx)
  have hc2F : isSpaceC c2 = false := by simpa using hc2
  have hD : str.reverse.dropWhile isSpaceC = c2 :: B2 := by
    rw [hrev, List.dropWhile_append, hA2nil]
    simp [List.dropWhile_cons, hc2F]
  have hd : d = c2 := by
    rw [hdw] at hD
    exact (List.cons.inj hD).1
  have hstr : str = B2.reverse ++ c2 :: A2.reverse := by
    have h2 := congrArg List.reverse hrev
    simpa [List.reverse_append] using h2
  have hlen2 : str.length = A2.length + 1 + B2.length := by
    have h3 := congrArg List.length hrev
    simp at h3
    omega
  have hdropl : str.drop l0 = c2 :: A2.reverse := by
    rw [hstr]
    apply List.drop_left'
    simp
    omega
  rw [charAt, hdropl, hd]
  rfl

theorem ffno_zero_charAt (str : List Char) (f0 : Nat) (d : Char) (rest : List Char)
    (h : ffno str 0 = some f0) (hdw : str.dropWhile isSpaceC = d :: rest) :
    charAt str f0 = d := by
  have hdrop := ffno_zero_drop str f0 h
  rw [charAt, hdrop, hdw]
  rfl

/-- Claim C6: `conv::parse` fails with a fatal assertion — returning no
value — whenever the input is entirely whitespace, or a configured
non-empty bracket marker's first character does not match the
corresponding first/last non-whitespace character, or a separator occurs
as the very first character of a field before the last (an empty
non-final field), or the interior span after removing brackets and
whitespace is empty or a single character (start index not strictly less
than end index); in particular a bracketed single-character interior
such as "[5]" fails. -/
theorem C6_parse_assert_failures :
    (∀ (α : Type) (conv : List Char → Option α) (opt : parse_options) (str : List Char),
      (∀ c ∈ str, isSpaceC c = true) → parse conv opt str = none)
    ∧ (∀ (α : Type) (conv : List Char → Option α) (opt : parse_options)
        (str : List Char) (c d : Char) (cs rest : List Char),
      opt.lbracket_ = c :: cs → str.dropWhile isSpaceC = d :: rest → d ≠ c →
      parse conv opt str = none)
    ∧ (∀ (α : Type) (conv : List Char → Option α) (opt : parse_options)
        (str : List Char) (c d : Char) (cs rest : List Char),
      opt.rbracket_ = c :: cs → str.reverse.dropWhile isSpaceC = d :: rest → d ≠ c →
      parse conv opt str = none)
    ∧ (∀ (α : Type) (conv : List Char → Option α) (opt : parse_options)
        (str F : List Char),
      parseInterior opt str = some F → badField opt.comma_ F →
      parse conv opt str = none)
    ∧ (∀ (α : Type) (conv : List Char → Option α) (opt : parse_options)
        (str : List Char) (first last : Nat),
      interiorFirst opt str = some (some first) →
      interiorLast opt str = some (some last) →
      ¬ first < last → parse conv opt str = none)
    ∧ parse from_string_int default_options "[5]".toList = none := by
  refine ⟨?_, ?_, ?_, ?_, ?_, by decide⟩
  · intro α conv opt str hall
    apply parse_of_parseInterior_none
    apply parseInterior_of_first_none
    unfold interiorFirst
    rw [(ffno_zero_eq_none_iff str).mpr hall]
  · intro α conv opt str c d cs rest hlb hdw hdc
    obtain ⟨f0, hf0⟩ := ffno_zero_isSome str (by rw [hdw]; simp)
    have hchar := ffno_zero_charAt str f0 d rest hf0 hdw
    apply parse_of_parseInterior_none
    apply parseInterior_of_first_none
    unfold interiorFirst
    rw [hf0]
    show lbracketStep opt.lbracket_ str f0 = none
    rw [hlb]
    show (if charAt str f0 = c then some (ffno str (f0 + 1)) else none) = none
    rw [if_neg (by rw [hchar]; exact hdc)]
  · intro α conv opt str c d cs rest hrb hdw hdc
    obtain ⟨l0, hl0⟩ := flnoAll_isSome str (by rw [hdw]; simp)
    have hchar := flnoAll_charAt str l0 d rest hl0 hdw
    apply parse_of_parseInterior_none
    apply parseInterior_of_last_none
    unfold interiorLast
    rw [hl0]
    show rbracketStep opt.rbracket_ str l0 = none
    rw [hrb]
    show (if charAt str l0 = c then
        some (if l0 = 0 then flnoAll str else flnoAll (str.take l0)) else none) = none
    rw [if_neg (by rw [hchar]; exact hdc)]
  · intro α conv opt str F hint hbad
    rw [parse_eq_scan conv opt str F hint]
    unfold scanFields
    exact scanFieldsAux_badField conv opt.comma_ (F.length + 1) F (by omega) hbad
  · intro α conv opt str first last hIF hIL hnl
    apply parse_of_parseInterior_none
    unfold parseInterior
    rw [hIF, hIL]
    show (if first < last then some (substr str first (last - first + 1)) else none) = none
    rw [if_neg hnl]

theorem C6_parse_assert_failures_witness :
    parse from_string_int default_options "   ".toList = none
    ∧ parse from_string_int default_options "x]".toList = none
    ∧ parse from_string_int default_options "[1,2".toList = none
    ∧ parse from_string_int default_options "[,1]".toList = none
    ∧ parse from_string_int default_options "[5]".toList = none := by
  refine ⟨?_, ?_, ?_, ?_, ?_⟩
  · exact C6_parse_assert_failures.1 Int from_string_int default_options
      "   ".toList (by decide)
  · exact C6_parse_assert_failures.2.1 Int from_string_int default_options
      "x]".toList '[' 'x' [] "]".toList rfl (by decide) (by decide)
  · exact C6_parse_assert_failures.2.2.1 Int from_string_int default_options
      "[1,2".toList ']' '2' [] ",1[".toList rfl (by decide) (by decide)
  · exact C6_parse_assert_failures.2.2.2.1 Int from_string_int default_options
      "[,1]".toList ",1".toList (by decide)
      ⟨[], ',', ['1'], by decide, by decide, Or.inl rfl⟩
  · exact C6_parse_assert_failures.2.2.2.2.1 Int from_string_int default_options
      "[5]".toList 1 1 (by decide) (by decide) (by omega)

/-- Claim C7 as stated is false at a concrete input: the separator match
is character-set matching (`find_first_of`), so the characters of the
marker after the first one do affect the result — "[0,1:2]" parsed with
the two-character marker ",:" differs from the parse with the
one-character marker ",". -/
theorem C7_counterexample_multichar_separator :
    parse from_string_int (comma ",:".toList) "[0,1:2]".toList
      ≠ parse from_string_int (comma ",".toList) "[0,1:2]".toList := by
  decide

/-- Claim C7, amended: the separator marker acts as a character set —
splitting occurs at occurrences of any character of the marker, and only
the set of its characters matters (order and multiplicity never affect
the result). -/
theorem C7_separator_is_character_set :
    (∀ (α : Type) (conv : List Char → Option α) (lb rb cm1 cm2 str : List Char),
      (∀ c : Char, cm1.contains c = cm2.contains c) →
      parse conv ⟨lb, rb, cm1⟩ str = parse conv ⟨lb, rb, cm2⟩ str)
    ∧ parse from_string_int (comma ",:".toList) "[0,1:2]".toList = some [0, 1, 2]
    ∧ parse from_string_int (comma ":,".toList) "[0,1:2]".toList = some [0, 1, 2] := by
  refine ⟨?_, by decide, by decide⟩
  intro α conv lb rb cm1 cm2 str hset
  have hint : parseInterior ⟨lb, rb, cm1⟩ str = parseInterior ⟨lb, rb, cm2⟩ str := rfl
  unfold parse
  rw [hint]
  cases parseInterior ⟨lb, rb, cm2⟩ str with
  | none => rfl
  | some F =>
    show scanFields conv cm1 F = scanFields conv cm2 F
    unfold scanFields
    exact scanFieldsAux_congr_sepset conv cm1 cm2 hset (F.length + 1) F

theorem C7_separator_is_character_set_witness :
    parse from_string_int ⟨"[".toList, "]".toList, ",:".toList⟩ "[0,1:2]".toList
      = parse from_string_int ⟨"[".toList, "]".toList, ":,".toList⟩ "[0,1:2]".toList :=
  C7_separator_is_character_set.1 Int from_string_int "[".toList "]".toList
    ",:".toList ":,".toList "[0,1:2]".toList
    (by
      intro c
      show ([',', ':'].contains c) = ([':', ','].contains c)
      simp only [List.contains_cons, List.contains_nil, Bool.or_false]
      exact Bool.or_comm _ _)

/-- Claim C8: in every parse call the final field — the text from just
after the last separator to the end of the interior, or the whole
interior when no separator occurs — is always converted via the element
conversion and appended as the last element of the result, even when
empty-looking; there is no trailing-empty-field suppression. -/
theorem C8_final_field_always_converted :
    (∀ (α : Type) (conv : List Char → Option α) (opt : parse_options)
        (str F : List Char) (l : List α),
      parseInterior opt str = some F → parse conv opt str = some l →
      ∃ v, conv (lastFieldOf opt.comma_ F) = some v ∧ l.getLast? = some v)
    ∧ parse (fun s => some (to_string_string s)) default_options "[a,]".toList
        = some ["a".toList, []] := by
  refine ⟨?_, by decide⟩
  intro α conv opt str F l hint hp
  rw [parse_eq_scan conv opt str F hint] at hp
  unfold scanFields at hp
  exact scanFieldsAux_getLast conv opt.comma_ (F.length + 1) F l (by omega) hp

theorem C8_final_field_always_converted_witness :
    ∃ v, (fun s => some (to_string_string s)) (lastFieldOf default_options.comma_ "a,b".toList)
        = some v
      ∧ (["a".toList, "b".toList] : List (List Char)).getLast? = some v :=
  C8_final_field_always_converted.1 (List Char) (fun s => some (to_string_string s))
    default_options "[a,b]".toList "a,b".toList ["a".toList, "b".toList]
    (by decide) (by decide)

/-- Claim C10: parse never trims individual fields — each field handed to
the element conversion is the exact substring between separators,
including surrounding whitespace, so with the identity string conversion
parse of "[a, b]" yields "a" and " b"; whitespace around numeric fields
is tolerated only because the numeric conversion itself trims. -/
theorem C10_fields_exact_substrings :
    (∀ (opt : parse_options) (str F : List Char) (l : List (List Char)),
      parseInterior opt str = some F →
      parse (fun s => some (to_string_string s)) opt str = some l →
      l = specSplit (fun c => opt.comma_.contains c) F)
    ∧ parse (fun s => some (to_string_string s)) default_options "[a, b]".toList
        = some ["a".toList, " b".toList]
    ∧ parse from_string_int default_options "[0, 1]".toList = some [0, 1] := by
  refine ⟨?_, by decide, by decide⟩
  intro opt str F l hint hp
  rw [parse_eq_scan _ opt str F hint] at hp
  unfold scanFields at hp
  exact scanFieldsAux_specSplit opt.comma_ (F.length + 1) F l (by omega) hp

theorem C10_fields_exact_substrings_witness :
    (["a".toList, " b".toList] : List (List Char))
      = specSplit (fun c => default_options.comma_.contains c) "a, b".toList :=
  C10_fields_exact_substrings.1 default_options "[a, b]".toList "a, b".toList
    ["a".toList, " b".toList] (by decide) (by decide)
